import Mathlib

/-!
Verification model of the FileUtils duplicate-file finder
(src/fileUtils.h, src/fileUtils.cpp, src/main.cpp).

Files are modelled as lists of bytes (`List Nat`); the filesystem is a
partial map from paths to file contents, `none` meaning the file cannot
be opened for reading.  Sizes recorded by the indexer come from a
separate size view (the directory walk only reads sizes, never
contents), matching the two independent accesses the program makes.
-/

namespace FileUtils

abbrev Path := String

/-- MAX_PASS from fileUtils.h line 39. -/
def MAX_PASS : Nat := 6

/-- BUFFER_SIZE table from fileUtils.cpp lines 22-23. -/
def BUFFER_SIZE : List Nat := [64, 255, 4096, 65535, 16777215, 268435456]

/-- The block a round of `CompareFiles` compares for one file: `fread`
fills at most `size` bytes of a zero-initialized buffer
(`new char[size]()`), and `memcmp` then inspects all `size` bytes, so a
short read is implicitly zero-padded. -/
def padTake (c : List Nat) (size : Nat) : List Nat :=
  c.take size ++ List.replicate (size - c.length) 0

/-- The do-while loop of `CompareFiles` (fileUtils.cpp lines 87-111).
`c1`, `c2` are the unread suffixes of the two files and `r` counts
completed rounds.  The source keeps `(pass, size)` state with
`if (pass < MAX_PASS) size = BUFFER_SIZE[pass++]`, which makes the size
used in round `r` exactly `BUFFER_SIZE[min r (MAX_PASS - 1)]` (the last
entry is reused once the table is exhausted).  `feof` is set for a file
exactly when the round requested more bytes than remained.  The second
component records each round as
(requested bytes, bytes read from file1, bytes read from file2).
The `fuel` argument only drives structural recursion: every round that
does not end the loop consumes at least 64 bytes of `c1`, so any fuel
above `c1.length` is never exhausted (`cmpLoopF_congr` below), and
`compareFilesRun` always supplies `c1.length + 1`. -/
def cmpLoopF : Nat → List Nat → List Nat → Nat → Bool × List (Nat × Nat × Nat)
  | 0, _, _, _ => (true, [])
  | fuel + 1, c1, c2, r =>
    let size := BUFFER_SIZE.getD (min r (MAX_PASS - 1)) 0
    let rd := (size, min size c1.length, min size c2.length)
    if padTake c1 size ≠ padTake c2 size then
      (false, [rd])
    else if c1.length < size ∨ c2.length < size then
      (true, [rd])
    else
      let rest := cmpLoopF fuel (c1.drop size) (c2.drop size) (r + 1)
      (rest.1, rd :: rest.2)

/-- Observable behaviour of one `CompareFiles` call: its boolean result,
the `fread` rounds it performed, what it printed (the function prints
only with std::cout, never std::cerr), and which successfully opened
FILE* handles were never passed to `fclose` before returning. -/
structure CFRun where
  result : Bool
  rounds : List (Nat × Nat × Nat)
  stdoutLog : List String
  stderrLog : List String
  leaked : List Path
deriving DecidableEq

/-- `FileUtils::CompareFiles` (fileUtils.cpp lines 62-117).  Both
`fopen` calls happen before either NULL check; the `if1 == NULL` exit
(line 76) and the `if2 == NULL` exit (line 81) return without any
`fclose`, so a handle that did open successfully stays open on those
paths.  The mismatch exit and the normal exit close both handles. -/
def compareFilesRun (fs : Path → Option (List Nat)) (file1 file2 : Path) : CFRun :=
  match fs file1 with
  | none =>
    { result := false, rounds := [],
      stdoutLog := ["Could not open: " ++ file1], stderrLog := [],
      leaked := match fs file2 with | none => [] | some _ => [file2] }
  | some c1 =>
    match fs file2 with
    | none =>
      { result := false, rounds := [],
        stdoutLog := ["Could not open: " ++ file2], stderrLog := [],
        leaked := [file1] }
    | some c2 =>
      let run := cmpLoopF (c1.length + 1) c1 c2 0
      { result := run.1, rounds := run.2, stdoutLog := [], stderrLog := [],
        leaked := [] }

/-- The boolean comparator, as used by `CompareMatchingKeys`. -/
def compareFiles (fs : Path → Option (List Nat)) (file1 file2 : Path) : Bool :=
  (compareFilesRun fs file1 file2).result

/-- The bucket key computed by `int size = file_size(itr->path())`
(fileUtils.cpp line 226): the unsigned on-disk size is converted to a
signed 32-bit `int`, i.e. reduced modulo 2^32 into the range
[-2^31, 2^31). -/
def toIntKey (s : Nat) : Int :=
  let m : Nat := s % 2 ^ 32
  if m < 2 ^ 31 then (m : Int) else (m : Int) - 2 ^ 32

/-- Lookup in the model of `std::unordered_map<int, std::vector<std::string>>`;
`file_map[k]` on an absent key yields an empty vector. -/
def lookupD (fm : List (Int × List Path)) (k : Int) : List Path :=
  match fm with
  | [] => []
  | (k', b) :: rest => if k' = k then b else lookupD rest k

/-- Map update: replace the first binding of `k`, or append a fresh one. -/
def updateMap (fm : List (Int × List Path)) (k : Int) (v : List Path) :
    List (Int × List Path) :=
  match fm with
  | [] => [(k, v)]
  | (k', b) :: rest =>
    if k' = k then (k, v) :: rest else (k', b) :: updateMap rest k v

/-- `std::set<int>::insert`: keep the key list strictly sorted, without
duplicates. -/
def insertKey (k : Int) : List Int → List Int
  | [] => [k]
  | x :: xs => if k < x then k :: x :: xs else if k = x then x :: xs else x :: insertKey k xs

/-- The two containers `BuildFileMap` populates: `file_map` and
`matching_keys` (fileUtils.h lines 42-46). -/
structure BuildState where
  fm : List (Int × List Path)
  mkeys : List Int
deriving DecidableEq

/-- The body of `BuildFileMap` for one regular file (fileUtils.cpp lines
224-237): push the path onto the bucket of its truncated size key, and
if the bucket now has more than one entry insert the key into
`matching_keys`. -/
def buildStep (st : BuildState) (e : Path × Nat) : BuildState :=
  let key := toIntKey e.2
  let bucket := lookupD st.fm key ++ [e.1]
  { fm := updateMap st.fm key bucket
    mkeys := if bucket.length > 1 then insertKey key st.mkeys else st.mkeys }

mutual
/-- A directory tree entry: a regular file with its on-disk size, or a
directory. -/
inductive Entry where
  | file (path : Path) (size : Nat)
  | dir (entries : EntryList)
/-- Directory contents in listing order. -/
inductive EntryList where
  | nil
  | cons (e : Entry) (es : EntryList)
end

mutual
/-- The sequence of (path, size) pairs `BuildFileMap` visits: a
depth-first walk in listing order (fileUtils.cpp lines 214-238). -/
def collectFiles : Entry → List (Path × Nat)
  | .file p s => [(p, s)]
  | .dir es => collectList es
/-- Depth-first walk of a directory listing. -/
def collectList : EntryList → List (Path × Nat)
  | .nil => []
  | .cons e es => collectFiles e ++ collectList es
end

/-- `FileUtils::BuildFileMap` run to completion on an existing root:
fold the per-file update over the walk order. -/
def buildFileMap (files : List (Path × Nat)) : BuildState :=
  files.foldl buildStep { fm := [], mkeys := [] }

/-- `std::set<std::string>::insert` on the `existing_matches` set: only
membership is observable. -/
def insertMatch (p : Path) (m : List Path) : List Path :=
  if p ∈ m then m else m ++ [p]

/-- Inner loop of `CompareMatchingKeys` (fileUtils.cpp lines 146-176):
scan the paths after the candidate representative `i`.  The source
checks `existing_matches.find(*i)` — the representative, not `j` —
before each comparison; when the check fails it calls
`CompareFiles(*i, *j)` and on a match prints `j` and inserts it into the
set.  Returns (printed cluster members after `i`, updated set, pairs
passed to the comparator in order). -/
def innerLoop (cmp : Path → Path → Bool) (i : Path) :
    List Path → List Path → List Path × List Path × List (Path × Path)
  | [], m => ([], m, [])
  | j :: rest, m =>
    if i ∈ m then
      innerLoop cmp i rest m
    else if cmp i j then
      let r := innerLoop cmp i rest (insertMatch j m)
      (j :: r.1, r.2.1, (i, j) :: r.2.2)
    else
      let r := innerLoop cmp i rest m
      (r.1, r.2.1, (i, j) :: r.2.2)

/-- Outer loop of `CompareMatchingKeys` over one size bucket
(fileUtils.cpp lines 142-184): each path in turn is the candidate
representative; `match_found` is true exactly when the inner scan
printed at least one `j`, in which case the cluster `i :: matches` was
emitted and `i` is inserted into the set. -/
def repLoop (cmp : Path → Path → Bool) :
    List Path → List Path → List (List Path) × List Path × List (Path × Path)
  | [], m => ([], m, [])
  | i :: rest, m =>
    let a := innerLoop cmp i rest m
    if a.1 = [] then
      let b := repLoop cmp rest a.2.1
      (b.1, b.2.1, a.2.2 ++ b.2.2)
    else
      let b := repLoop cmp rest (insertMatch i a.2.1)
      ((i :: a.1) :: b.1, b.2.1, a.2.2 ++ b.2.2)

/-- Iteration of `CompareMatchingKeys` over `matching_keys`
(fileUtils.cpp lines 136-185).  Note that `existing_matches` is declared
once for the whole function, so the set is threaded across buckets, not
reset per bucket. -/
def cmkGo (cmp : Path → Path → Bool) (fm : List (Int × List Path)) :
    List Int → List Path → List (List Path) × List Path × List (Path × Path)
  | [], m => ([], m, [])
  | k :: ks, m =>
    let r := repLoop cmp (lookupD fm k) m
    let s := cmkGo cmp fm ks r.2.1
    (r.1 ++ s.1, s.2.1, r.2.2 ++ s.2.2)

/-- `FileUtils::CompareMatchingKeys`: the clusters it prints (each as
representative followed by its matches, in print order) and the trace of
pairs it passes to `CompareFiles`. -/
def compareMatchingKeys (cmp : Path → Path → Bool) (st : BuildState) :
    List (List Path) × List (Path × Path) :=
  let r := cmkGo cmp st.fm st.mkeys []
  (r.1, r.2.2)

/-- The `Total data compared` figure of `PrintMapStats` (fileUtils.cpp
lines 278-282): for each map entry, key times bucket length divided by
2^20, accumulated.  Modelled over the rationals (the double rounding of
the source is outside this model); the point is which numbers enter the
sum: the truncated int keys. -/
def totalMB (st : BuildState) : ℚ :=
  (st.fm.map (fun e => ((e.1 : ℚ) * (e.2.length : ℚ)) / 2 ^ 20)).sum

/-- `main` from src/main.cpp.  `argv` is the argument vector (index 0 is
the program name).  The source constructs `std::string root(argv[1])`
before checking `argc`, so when no argument was supplied it reads the
NULL terminator `argv[1]` — undefined behaviour, modelled as
`Except.error ()`.  Otherwise the result is (exit code, stderr lines,
whether FindDups ran). -/
def mainRun (argv : List String) : Except Unit (Nat × List String × Bool) :=
  match argv.get? 1 with
  | none => Except.error ()
  | some _root =>
    if argv.length ≠ 2 then
      Except.ok (1, ["Usage: file_utils <root_directory>"], false)
    else
      Except.ok (0, [], true)

/-- Every round of the comparison loop requests a positive number of
bytes: each entry of BUFFER_SIZE is positive. -/
lemma bufferSize_pos (r : Nat) : 0 < BUFFER_SIZE.getD (min r (MAX_PASS - 1)) 0 := by
  have h : min r (MAX_PASS - 1) ≤ 5 := min_le_right r 5
  set i := min r (MAX_PASS - 1) with hi
  interval_cases i <;> decide

/-- The fuel of `cmpLoopF` is irrelevant once it exceeds either file's
remaining length: every round that continues the loop consumes at least
one byte (in fact at least 64) from both files. -/
lemma cmpLoopF_congr :
    ∀ f g c1 c2 r, (c1.length < f ∨ c2.length < f) →
      (c1.length < g ∨ c2.length < g) →
      cmpLoopF f c1 c2 r = cmpLoopF g c1 c2 r := by
  intro f
  induction f with
  | zero => intro g c1 c2 r hf _; omega
  | succ f ih =>
    intro g c1 c2 r hf hg
    match g with
    | 0 => omega
    | g + 1 =>
      simp only [cmpLoopF]
      by_cases hpt : padTake c1 (BUFFER_SIZE.getD (min r (MAX_PASS - 1)) 0)
          ≠ padTake c2 (BUFFER_SIZE.getD (min r (MAX_PASS - 1)) 0)
      · rw [if_pos hpt, if_pos hpt]
      · rw [if_neg hpt, if_neg hpt]
        by_cases heof : c1.length < BUFFER_SIZE.getD (min r (MAX_PASS - 1)) 0
            ∨ c2.length < BUFFER_SIZE.getD (min r (MAX_PASS - 1)) 0
        · rw [if_pos heof, if_pos heof]
        · rw [if_neg heof, if_neg heof]
          have hpos := bufferSize_pos r
          have h1 : BUFFER_SIZE.getD (min r (MAX_PASS - 1)) 0 ≤ c1.length := by omega
          have h2 : BUFFER_SIZE.getD (min r (MAX_PASS - 1)) 0 ≤ c2.length := by omega
          rw [ih g (c1.drop (BUFFER_SIZE.getD (min r (MAX_PASS - 1)) 0))
            (c2.drop (BUFFER_SIZE.getD (min r (MAX_PASS - 1)) 0)) (r + 1)
            (by simp only [List.length_drop]; omega)
            (by simp only [List.length_drop]; omega)]

/-- The boolean result of the comparison loop is symmetric in the two
files: every round compares the two blocks for equality and checks
end-of-stream on both files symmetrically. -/
lemma cmpLoopF_result_comm :
    ∀ f c1 c2 r, (cmpLoopF f c1 c2 r).1 = (cmpLoopF f c2 c1 r).1 := by
  intro f
  induction f with
  | zero => intro c1 c2 r; rfl
  | succ f ih =>
    intro c1 c2 r
    simp only [cmpLoopF]
    set s := BUFFER_SIZE.getD (min r (MAX_PASS - 1)) 0 with hs
    by_cases hpt : padTake c1 s = padTake c2 s
    · have h1 : ¬ (padTake c1 s ≠ padTake c2 s) := not_not_intro hpt
      have h2 : ¬ (padTake c2 s ≠ padTake c1 s) := not_not_intro hpt.symm
      rw [if_neg h1, if_neg h2]
      by_cases heof : c1.length < s ∨ c2.length < s
      · have h3 : c2.length < s ∨ c1.length < s := heof.symm
        rw [if_pos heof, if_pos h3]
      · have h4 : ¬ (c2.length < s ∨ c1.length < s) := fun h => heof h.symm
        rw [if_neg heof, if_neg h4]
        exact ih _ _ (r + 1)
    · have h5 : padTake c1 s ≠ padTake c2 s := hpt
      have h6 : padTake c2 s ≠ padTake c1 s := Ne.symm hpt
      rw [if_pos h5, if_pos h6]


/-- Membership in the matched set after an insertion. -/
lemma mem_insertMatch {y p : Path} {m : List Path} :
    y ∈ insertMatch p m ↔ y = p ∨ y ∈ m := by
  unfold insertMatch
  by_cases h : p ∈ m
  · rw [if_pos h]
    constructor
    · exact fun hy => Or.inr hy
    · rintro (rfl | hy)
      · exact h
      · exact hy
  · rw [if_neg h]
    simp [List.mem_append, or_comm]

/-- When the representative is already in the matched set, the inner
scan compares nothing, prints nothing and leaves the set unchanged. -/
lemma innerLoop_skip (cmp : Path → Path → Bool) (i : Path) :
    ∀ js m, i ∈ m → innerLoop cmp i js m = ([], m, []) := by
  intro js
  induction js with
  | nil => intro m _; rfl
  | cons j rest ih =>
    intro m h
    simp only [innerLoop, if_pos h]
    exact ih m h

/-- The printed matches of one inner scan form a subsequence of the
scanned paths. -/
lemma innerLoop_cluster_sublist (cmp : Path → Path → Bool) (i : Path) :
    ∀ js m, (innerLoop cmp i js m).1.Sublist js := by
  intro js
  induction js with
  | nil => intro m; simp [innerLoop]
  | cons j rest ih =>
    intro m
    simp only [innerLoop]
    by_cases h : i ∈ m
    · rw [if_pos h]
      exact (ih m).cons j
    · rw [if_neg h]
      by_cases hc : cmp i j = true
      · simp only [hc, if_true]
        exact (ih (insertMatch j m)).cons₂ j
      · simp only [hc, if_false]
        exact (ih m).cons j

/-- The matched set after one inner scan: exactly the old set plus the
newly printed matches. -/
lemma innerLoop_matched_iff (cmp : Path → Path → Bool) (i : Path) :
    ∀ js m y, y ∈ (innerLoop cmp i js m).2.1
      ↔ y ∈ m ∨ y ∈ (innerLoop cmp i js m).1 := by
  intro js
  induction js with
  | nil => intro m y; simp [innerLoop]
  | cons j rest ih =>
    intro m y
    simp only [innerLoop]
    by_cases h : i ∈ m
    · rw [if_pos h]
      simp only [innerLoop_skip cmp i rest m h]
      simp
    · rw [if_neg h]
      by_cases hc : cmp i j = true
      · simp only [hc, if_true]
        rw [ih (insertMatch j m) y]
        simp only [mem_insertMatch, List.mem_cons]
        tauto
      · simp only [hc, if_false]
        exact ih m y

/-- Every path the inner scan prints was accepted by the comparator
against the representative. -/
lemma innerLoop_matches (cmp : Path → Path → Bool) (i : Path) :
    ∀ js m, i ∉ m → i ∉ js →
      ∀ j ∈ (innerLoop cmp i js m).1, cmp i j = true := by
  intro js
  induction js with
  | nil => intro m _ _ j hj; simp [innerLoop] at hj
  | cons j rest ih =>
    intro m hm hjs x hx
    have hij : i ≠ j := fun h => hjs (h ▸ List.mem_cons_self j rest)
    have hirest : i ∉ rest := fun h => hjs (List.mem_cons_of_mem j h)
    simp only [innerLoop, if_neg hm] at hx
    by_cases hc : cmp i j = true
    · simp only [hc, if_true, List.mem_cons] at hx
      rcases hx with rfl | hx
      · exact hc
      · exact ih (insertMatch j m)
          (fun h => (mem_insertMatch.mp h).elim (fun h' => hij h') hm) hirest x hx
    · simp only [hc, if_false] at hx
      exact ih m hm hirest x hx

/-- Every scanned path the comparator accepts against a fresh
representative is printed: nothing causes a accepted `j` to be skipped
(there is no membership test on `j`). -/
lemma innerLoop_complete (cmp : Path → Path → Bool) (i : Path) :
    ∀ js m, i ∉ m → i ∉ js →
      ∀ x ∈ js, cmp i x = true → x ∈ (innerLoop cmp i js m).1 := by
  intro js
  induction js with
  | nil => intro m _ _ x hx; simp at hx
  | cons j rest ih =>
    intro m hm hjs x hx hcx
    have hij : i ≠ j := fun h => hjs (h ▸ List.mem_cons_self j rest)
    have hirest : i ∉ rest := fun h => hjs (List.mem_cons_of_mem j h)
    simp only [innerLoop, if_neg hm]
    rcases List.mem_cons.mp hx with rfl | hx
    · simp only [hcx, if_true]
      exact List.mem_cons_self x _
    · by_cases hc : cmp i j = true
      · simp only [hc, if_true]
        exact List.mem_cons_of_mem j
          (ih (insertMatch j m)
            (fun h => (mem_insertMatch.mp h).elim (fun h' => hij h') hm) hirest x hx hcx)
      · simp only [hc, if_false]
        exact ih m hm hirest x hx hcx

/-- Every comparator call of one inner scan pairs the representative
with a scanned path. -/
lemma innerLoop_trace (cmp : Path → Path → Bool) (i : Path) :
    ∀ js m p q, (p, q) ∈ (innerLoop cmp i js m).2.2 → p = i ∧ q ∈ js := by
  intro js
  induction js with
  | nil => intro m p q h; simp [innerLoop] at h
  | cons j rest ih =>
    intro m p q h
    simp only [innerLoop] at h
    by_cases hm : i ∈ m
    · rw [if_pos hm] at h
      obtain ⟨h1, h2⟩ := ih m p q h
      exact ⟨h1, List.mem_cons_of_mem j h2⟩
    · rw [if_neg hm] at h
      by_cases hc : cmp i j = true
      · simp only [hc, if_true, List.mem_cons, Prod.mk.injEq] at h
        rcases h with ⟨h1, h2⟩ | h
        · subst h1; subst h2
          exact ⟨rfl, List.mem_cons_self _ _⟩
        · obtain ⟨h1, h2⟩ := ih (insertMatch j m) p q h
          exact ⟨h1, List.mem_cons_of_mem j h2⟩
      · rw [if_neg hc] at h
        simp only [List.mem_cons, Prod.mk.injEq] at h
        rcases h with ⟨h1, h2⟩ | h
        · subst h1; subst h2
          exact ⟨rfl, List.mem_cons_self _ _⟩
        · obtain ⟨h1, h2⟩ := ih m p q h
          exact ⟨h1, List.mem_cons_of_mem j h2⟩

/-- The matched set only grows across one bucket scan. -/
lemma repLoop_matched_mono (cmp : Path → Path → Bool) :
    ∀ paths m y, y ∈ m → y ∈ (repLoop cmp paths m).2.1 := by
  intro paths
  induction paths with
  | nil => intro m y h; exact h
  | cons i rest ih =>
    intro m y h
    have h1 : y ∈ (innerLoop cmp i rest m).2.1 :=
      (innerLoop_matched_iff cmp i rest m y).mpr (Or.inl h)
    simp only [repLoop]
    by_cases ha : (innerLoop cmp i rest m).1 = []
    · rw [if_pos ha]
      exact ih _ y h1
    · rw [if_neg ha]
      exact ih _ y (mem_insertMatch.mpr (Or.inr h1))

/-- Every member of the matched set after one bucket scan was already
matched or belongs to the bucket. -/
lemma repLoop_matched_sub (cmp : Path → Path → Bool) :
    ∀ paths m y, y ∈ (repLoop cmp paths m).2.1 → y ∈ m ∨ y ∈ paths := by
  intro paths
  induction paths with
  | nil => intro m y h; exact Or.inl h
  | cons i rest ih =>
    intro m y h
    have hsub : ∀ z, z ∈ (innerLoop cmp i rest m).1 → z ∈ rest :=
      fun z hz => (innerLoop_cluster_sublist cmp i rest m).subset hz
    simp only [repLoop] at h
    by_cases ha : (innerLoop cmp i rest m).1 = []
    · rw [if_pos ha] at h
      rcases ih _ y h with h' | h'
      · rcases (innerLoop_matched_iff cmp i rest m y).mp h' with h'' | h''
        · exact Or.inl h''
        · exact Or.inr (List.mem_cons_of_mem i (hsub y h''))
      · exact Or.inr (List.mem_cons_of_mem i h')
    · rw [if_neg ha] at h
      rcases ih _ y h with h' | h'
      · rcases mem_insertMatch.mp h' with rfl | h''
        · exact Or.inr (List.mem_cons_self _ _)
        · rcases (innerLoop_matched_iff cmp i rest m y).mp h'' with h3 | h3
          · exact Or.inl h3
          · exact Or.inr (List.mem_cons_of_mem i (hsub y h3))
      · exact Or.inr (List.mem_cons_of_mem i h')

/-- Every printed cluster member of one bucket scan belongs to the
bucket. -/
lemma repLoop_clusters_sub (cmp : Path → Path → Bool) :
    ∀ paths m y, y ∈ (repLoop cmp paths m).1.flatten → y ∈ paths := by
  intro paths
  induction paths with
  | nil => intro m y h; simp [repLoop] at h
  | cons i rest ih =>
    intro m y h
    have hsub : ∀ z, z ∈ (innerLoop cmp i rest m).1 → z ∈ rest :=
      fun z hz => (innerLoop_cluster_sublist cmp i rest m).subset hz
    simp only [repLoop] at h
    by_cases ha : (innerLoop cmp i rest m).1 = []
    · rw [if_pos ha] at h
      exact List.mem_cons_of_mem i (ih _ y h)
    · rw [if_neg ha] at h
      simp only [List.flatten_cons, List.mem_append, List.mem_cons] at h
      rcases h with (rfl | h) | h
      · exact List.mem_cons_self _ _
      · exact List.mem_cons_of_mem i (hsub y h)
      · exact List.mem_cons_of_mem i (ih _ y h)

/-- Every comparator call of one bucket scan pairs two bucket members. -/
lemma repLoop_trace_sub (cmp : Path → Path → Bool) :
    ∀ paths m p q, (p, q) ∈ (repLoop cmp paths m).2.2 → p ∈ paths ∧ q ∈ paths := by
  intro paths
  induction paths with
  | nil => intro m p q h; simp [repLoop] at h
  | cons i rest ih =>
    intro m p q h
    simp only [repLoop] at h
    by_cases ha : (innerLoop cmp i rest m).1 = []
    · rw [if_pos ha] at h
      simp only [List.mem_append] at h
      rcases h with h | h
      · obtain ⟨rfl, h2⟩ := innerLoop_trace cmp i rest m p q h
        exact ⟨List.mem_cons_self _ _, List.mem_cons_of_mem _ h2⟩
      · obtain ⟨h1, h2⟩ := ih _ p q h
        exact ⟨List.mem_cons_of_mem i h1, List.mem_cons_of_mem i h2⟩
    · rw [if_neg ha] at h
      simp only [List.mem_append] at h
      rcases h with h | h
      · obtain ⟨rfl, h2⟩ := innerLoop_trace cmp i rest m p q h
        exact ⟨List.mem_cons_self _ _, List.mem_cons_of_mem _ h2⟩
      · obtain ⟨h1, h2⟩ := ih _ p q h
        exact ⟨List.mem_cons_of_mem i h1, List.mem_cons_of_mem i h2⟩

/-- Single-bucket invariant: if the bucket paths are distinct and no
still-unscanned unmatched path compares equal to an already matched
path, the clusters printed for this bucket are duplicate-free and avoid
previously matched paths.  Transitivity and symmetry of the comparator
are needed here: the source never tests `j` against the matched set, so
an already matched `j` is compared again, and only the comparator's
transitivity prevents it from being printed a second time. -/
lemma repLoop_flatten_nodup (cmp : Path → Path → Bool)
    (hsym : ∀ a b, cmp a b = cmp b a)
    (htrans : ∀ a b c, cmp a b = true → cmp b c = true → cmp a c = true) :
    ∀ paths m, paths.Nodup →
      (∀ x j, x ∈ paths → j ∈ paths → x ∉ m → j ∈ m → cmp x j = false) →
      (repLoop cmp paths m).1.flatten.Nodup
      ∧ ∀ y ∈ (repLoop cmp paths m).1.flatten, y ∉ m := by
  intro paths
  induction paths with
  | nil =>
    intro m _ _
    exact ⟨List.nodup_nil, by simp [repLoop]⟩
  | cons i rest ih =>
    intro m hnd hinv
    have hirest : i ∉ rest := (List.nodup_cons.mp hnd).1
    have hrestnd : rest.Nodup := (List.nodup_cons.mp hnd).2
    simp only [repLoop]
    by_cases ha : (innerLoop cmp i rest m).1 = []
    · rw [if_pos ha]
      have hmm : ∀ y, y ∈ (innerLoop cmp i rest m).2.1 ↔ y ∈ m := by
        intro y
        rw [innerLoop_matched_iff cmp i rest m y, ha]
        simp
      have hinv' : ∀ x j, x ∈ rest → j ∈ rest → x ∉ (innerLoop cmp i rest m).2.1 →
          j ∈ (innerLoop cmp i rest m).2.1 → cmp x j = false := by
        intro x j hx hj hxm hjm
        exact hinv x j (List.mem_cons_of_mem i hx) (List.mem_cons_of_mem i hj)
          (fun h => hxm ((hmm x).mpr h)) ((hmm j).mp hjm)
      obtain ⟨h1, h2⟩ := ih _ hrestnd hinv'
      exact ⟨h1, fun y hy hym => h2 y hy ((hmm y).mpr hym)⟩
    · rw [if_neg ha]
      have him : i ∉ m := by
        intro h
        exact ha (by rw [innerLoop_skip cmp i rest m h])
      have hcl_sub : ∀ z, z ∈ (innerLoop cmp i rest m).1 → z ∈ rest :=
        fun z hz => (innerLoop_cluster_sublist cmp i rest m).subset hz
      have hcl_nd : (innerLoop cmp i rest m).1.Nodup :=
        (innerLoop_cluster_sublist cmp i rest m).nodup hrestnd
      have hcl_cmp : ∀ j ∈ (innerLoop cmp i rest m).1, cmp i j = true :=
        innerLoop_matches cmp i rest m him hirest
      have hcomplete : ∀ x ∈ rest, cmp i x = true → x ∈ (innerLoop cmp i rest m).1 :=
        fun x hx hcx => innerLoop_complete cmp i rest m him hirest x hx hcx
      have hcl_notm : ∀ y ∈ (innerLoop cmp i rest m).1, y ∉ m := by
        intro y hy hym
        have hf := hinv i y (List.mem_cons_self _ _)
          (List.mem_cons_of_mem i (hcl_sub y hy)) him hym
        rw [hcl_cmp y hy] at hf
        cases hf
      have hm2 : ∀ y, y ∈ insertMatch i (innerLoop cmp i rest m).2.1
          ↔ y = i ∨ y ∈ m ∨ y ∈ (innerLoop cmp i rest m).1 := by
        intro y
        rw [mem_insertMatch, innerLoop_matched_iff cmp i rest m y]
      have hinv2 : ∀ x j, x ∈ rest → j ∈ rest →
          x ∉ insertMatch i (innerLoop cmp i rest m).2.1 →
          j ∈ insertMatch i (innerLoop cmp i rest m).2.1 → cmp x j = false := by
        intro x j hx hj hxm2 hjm2
        have hxm : x ∉ m := fun h => hxm2 ((hm2 x).mpr (Or.inr (Or.inl h)))
        have hxcl : x ∉ (innerLoop cmp i rest m).1 :=
          fun h => hxm2 ((hm2 x).mpr (Or.inr (Or.inr h)))
        have hix : cmp i x = false := by
          cases hcx : cmp i x
          · rfl
          · exact absurd (hcomplete x hx hcx) hxcl
        rcases (hm2 j).mp hjm2 with rfl | hjm | hjcl
        · rw [hsym x j]
          exact hix
        · exact hinv x j (List.mem_cons_of_mem i hx) (List.mem_cons_of_mem i hj) hxm hjm
        · cases hcxj : cmp x j
          · rfl
          · have h1 : cmp j x = true := by rw [hsym j x]; exact hcxj
            have h2 : cmp i x = true := htrans i j x (hcl_cmp j hjcl) h1
            rw [hix] at h2
            cases h2
      obtain ⟨hbnd, hbnotm2⟩ := ih (insertMatch i (innerLoop cmp i rest m).2.1) hrestnd hinv2
      have hi_m2 : i ∈ insertMatch i (innerLoop cmp i rest m).2.1 :=
        (hm2 i).mpr (Or.inl rfl)
      have hcl_m2 : ∀ y ∈ (innerLoop cmp i rest m).1,
          y ∈ insertMatch i (innerLoop cmp i rest m).2.1 :=
        fun y hy => (hm2 y).mpr (Or.inr (Or.inr hy))
      constructor
      · simp only [List.flatten_cons]
        refine List.Nodup.append ?_ hbnd ?_
        · exact List.nodup_cons.mpr ⟨fun h => hirest (hcl_sub i h), hcl_nd⟩
        · intro y hy hy'
          have hym2 := hbnotm2 y hy'
          rcases List.mem_cons.mp hy with rfl | hy
          · exact hym2 hi_m2
          · exact hym2 (hcl_m2 y hy)
      · intro y hy hym
        simp only [List.flatten_cons, List.mem_append, List.mem_cons] at hy
        rcases hy with (rfl | hy) | hy
        · exact him hym
        · exact hcl_notm y hy hym
        · exact hbnotm2 y hy ((hm2 y).mpr (Or.inr (Or.inl hym)))

/-- Cross-bucket composition: with duplicate-free, pairwise-disjoint
buckets and a matched set disjoint from all remaining buckets, the full
cluster output is duplicate-free; the matched set threaded across
buckets stays inside the matched set and the processed buckets. -/
lemma cmkGo_flatten_nodup (cmp : Path → Path → Bool) (fm : List (Int × List Path))
    (hsym : ∀ a b, cmp a b = cmp b a)
    (htrans : ∀ a b c, cmp a b = true → cmp b c = true → cmp a c = true) :
    ∀ ks m, (∀ k ∈ ks, (lookupD fm k).Nodup) →
      ks.Pairwise (fun k1 k2 => ∀ y, y ∈ lookupD fm k1 → y ∉ lookupD fm k2) →
      (∀ k ∈ ks, ∀ y ∈ m, y ∉ lookupD fm k) →
      (cmkGo cmp fm ks m).1.flatten.Nodup
      ∧ (∀ y ∈ (cmkGo cmp fm ks m).1.flatten, ∃ k ∈ ks, y ∈ lookupD fm k)
      ∧ (∀ y ∈ (cmkGo cmp fm ks m).2.1, y ∈ m ∨ ∃ k ∈ ks, y ∈ lookupD fm k) := by
  intro ks
  induction ks with
  | nil =>
    intro m _ _ _
    exact ⟨List.nodup_nil, by simp [cmkGo], fun y hy => Or.inl hy⟩
  | cons k ks ih =>
    intro m hbnd hpw hmd
    obtain ⟨hpw_head, hpw_tail⟩ := List.pairwise_cons.mp hpw
    have hinv : ∀ x j, x ∈ lookupD fm k → j ∈ lookupD fm k → x ∉ m → j ∈ m →
        cmp x j = false := by
      intro x j _ hj _ hjm
      exact absurd hj (hmd k (List.mem_cons_self _ _) j hjm)
    obtain ⟨hrnd, hrnotm⟩ := repLoop_flatten_nodup cmp hsym htrans (lookupD fm k) m
      (hbnd k (List.mem_cons_self _ _)) hinv
    have hrsub : ∀ y ∈ (repLoop cmp (lookupD fm k) m).1.flatten, y ∈ lookupD fm k :=
      fun y hy => repLoop_clusters_sub cmp (lookupD fm k) m y hy
    have hmsub : ∀ y ∈ (repLoop cmp (lookupD fm k) m).2.1, y ∈ m ∨ y ∈ lookupD fm k :=
      fun y hy => repLoop_matched_sub cmp (lookupD fm k) m y hy
    have hmd' : ∀ k' ∈ ks, ∀ y ∈ (repLoop cmp (lookupD fm k) m).2.1,
        y ∉ lookupD fm k' := by
      intro k' hk' y hy
      rcases hmsub y hy with h | h
      · exact hmd k' (List.mem_cons_of_mem k hk') y h
      · exact hpw_head k' hk' y h
    obtain ⟨h1, h2, h3⟩ := ih _ (fun k' hk' => hbnd k' (List.mem_cons_of_mem k hk'))
      hpw_tail hmd'
    simp only [cmkGo]
    refine ⟨?_, ?_, ?_⟩
    · simp only [List.flatten_append]
      refine List.Nodup.append hrnd h1 ?_
      intro y hy hy'
      obtain ⟨k', hk', hyk'⟩ := h2 y hy'
      exact hpw_head k' hk' y (hrsub y hy) hyk'
    · intro y hy
      simp only [List.flatten_append, List.mem_append] at hy
      rcases hy with hy | hy
      · exact ⟨k, List.mem_cons_self _ _, hrsub y hy⟩
      · obtain ⟨k', hk', hyk'⟩ := h2 y hy
        exact ⟨k', List.mem_cons_of_mem k hk', hyk'⟩
    · intro y hy
      rcases h3 y hy with hy' | ⟨k', hk', hyk'⟩
      · rcases hmsub y hy' with h | h
        · exact Or.inl h
        · exact Or.inr ⟨k, List.mem_cons_self _ _, h⟩
      · exact Or.inr ⟨k', List.mem_cons_of_mem k hk', hyk'⟩

/-- Every comparator call of the whole scan pairs two members of the
bucket of some key in the processed key list. -/
lemma cmkGo_trace_sub (cmp : Path → Path → Bool) (fm : List (Int × List Path)) :
    ∀ ks m p q, (p, q) ∈ (cmkGo cmp fm ks m).2.2 →
      ∃ k, k ∈ ks ∧ (p ∈ lookupD fm k ∧ q ∈ lookupD fm k) := by
  intro ks
  induction ks with
  | nil => intro m p q h; simp [cmkGo] at h
  | cons k ks ih =>
    intro m p q h
    simp only [cmkGo, List.mem_append] at h
    rcases h with h | h
    · obtain ⟨h1, h2⟩ := repLoop_trace_sub cmp (lookupD fm k) m p q h
      exact ⟨k, List.mem_cons_self _ _, h1, h2⟩
    · obtain ⟨k', hk', hpq⟩ := ih _ p q h
      exact ⟨k', List.mem_cons_of_mem k hk', hpq⟩

/-- Updating a key and looking it up returns the stored bucket. -/
lemma lookupD_updateMap_self (fm : List (Int × List Path)) (k : Int) (v : List Path) :
    lookupD (updateMap fm k v) k = v := by
  induction fm with
  | nil => simp [updateMap, lookupD]
  | cons e rest ih =>
    obtain ⟨k0, b⟩ := e
    simp only [updateMap]
    by_cases h : k0 = k
    · rw [if_pos h]
      simp [lookupD]
    · rw [if_neg h]
      simp only [lookupD, if_neg h]
      exact ih

/-- Updating one key leaves the buckets of other keys unchanged. -/
lemma lookupD_updateMap_ne (fm : List (Int × List Path)) (k k' : Int) (v : List Path)
    (h : k ≠ k') : lookupD (updateMap fm k v) k' = lookupD fm k' := by
  induction fm with
  | nil => simp [updateMap, lookupD, h]
  | cons e rest ih =>
    obtain ⟨k0, b⟩ := e
    simp only [updateMap]
    by_cases h0 : k0 = k
    · subst h0
      rw [if_pos rfl]
      simp only [lookupD, if_neg h]
    · rw [if_neg h0]
      simp only [lookupD]
      by_cases h1 : k0 = k'
      · rw [if_pos h1, if_pos h1]
      · rw [if_neg h1, if_neg h1]
        exact ih

/-- Bucket contents after the build fold: the bucket of `k` holds, in
walk order, exactly the paths of the visited files whose truncated size
key is `k`, appended after whatever the starting state held. -/
lemma foldl_buildStep_bucket :
    ∀ (files : List (Path × Nat)) (st : BuildState) (k : Int),
      lookupD (files.foldl buildStep st).fm k
        = lookupD st.fm k ++ (files.filter (fun e => toIntKey e.2 == k)).map Prod.fst := by
  intro files
  induction files with
  | nil => intro st k; simp
  | cons e es ih =>
    intro st k
    simp only [List.foldl_cons]
    rw [ih (buildStep st e) k]
    by_cases h : toIntKey e.2 = k
    · have hb : lookupD (buildStep st e).fm k = lookupD st.fm k ++ [e.1] := by
        simp only [buildStep]
        rw [← h, lookupD_updateMap_self]
      rw [hb]
      simp only [List.filter_cons]
      rw [if_pos (by simp [h])]
      simp [List.append_assoc]
    · have hb : lookupD (buildStep st e).fm k = lookupD st.fm k := by
        simp only [buildStep]
        exact lookupD_updateMap_ne _ _ _ _ h
      rw [hb]
      simp only [List.filter_cons]
      rw [if_neg (by simp [h])]

/-- `BuildFileMap` bucket characterization. -/
lemma buildFileMap_bucket (files : List (Path × Nat)) (k : Int) :
    lookupD (buildFileMap files).fm k
      = (files.filter (fun e => toIntKey e.2 == k)).map Prod.fst := by
  have h := foldl_buildStep_bucket files { fm := [], mkeys := [] } k
  simpa [buildFileMap, lookupD] using h

/-- Membership after a set insertion of a key. -/
lemma mem_insertKey {y k : Int} : ∀ {l : List Int}, y ∈ insertKey k l ↔ y = k ∨ y ∈ l := by
  intro l
  induction l with
  | nil => simp [insertKey]
  | cons x xs ih =>
    simp only [insertKey]
    by_cases h1 : k < x
    · rw [if_pos h1]
      simp only [List.mem_cons]
    · rw [if_neg h1]
      by_cases h2 : k = x
      · subst h2
        rw [if_pos rfl]
        simp only [List.mem_cons]
        tauto
      · rw [if_neg h2]
        simp only [List.mem_cons, ih]
        tauto

/-- Set insertion preserves strict sortedness of the key list. -/
lemma insertKey_pairwise {k : Int} :
    ∀ {l : List Int}, l.Pairwise (· < ·) → (insertKey k l).Pairwise (· < ·) := by
  intro l
  induction l with
  | nil => intro _; simp [insertKey]
  | cons x xs ih =>
    intro hp
    obtain ⟨hx, hxs⟩ := List.pairwise_cons.mp hp
    simp only [insertKey]
    by_cases h1 : k < x
    · rw [if_pos h1]
      refine List.pairwise_cons.mpr ⟨?_, hp⟩
      intro a ha
      rcases List.mem_cons.mp ha with rfl | ha
      · exact h1
      · exact h1.trans (hx a ha)
    · rw [if_neg h1]
      by_cases h2 : k = x
      · rw [if_pos h2]
        exact hp
      · rw [if_neg h2]
        have hxk : x < k := by
          rcases lt_trichotomy k x with h | h | h
          · exact absurd h h1
          · exact absurd h h2
          · exact h
        refine List.pairwise_cons.mpr ⟨?_, ih hxs⟩
        intro a ha
        rcases mem_insertKey.mp ha with rfl | ha
        · exact hxk
        · exact hx a ha

/-- The `matching_keys` invariant is maintained by every build step: a
key is in the set exactly when its bucket has more than one member. -/
lemma foldl_buildStep_mkeys :
    ∀ (files : List (Path × Nat)) (st : BuildState),
      (∀ k, k ∈ st.mkeys ↔ 1 < (lookupD st.fm k).length) →
      ∀ k, k ∈ (files.foldl buildStep st).mkeys
        ↔ 1 < (lookupD (files.foldl buildStep st).fm k).length := by
  intro files
  induction files with
  | nil => intro st h k; exact h k
  | cons e es ih =>
    intro st h k
    simp only [List.foldl_cons]
    refine ih (buildStep st e) ?_ k
    intro k'
    simp only [buildStep]
    by_cases hk : toIntKey e.2 = k'
    · have hlk : lookupD (updateMap st.fm (toIntKey e.2)
          (lookupD st.fm (toIntKey e.2) ++ [e.1])) k'
          = lookupD st.fm (toIntKey e.2) ++ [e.1] := by
        rw [← hk]
        exact lookupD_updateMap_self _ _ _
      by_cases hb : (lookupD st.fm (toIntKey e.2) ++ [e.1]).length > 1
      · rw [if_pos hb, hlk]
        constructor
        · intro _; exact hb
        · intro _; exact mem_insertKey.mpr (Or.inl hk.symm)
      · rw [if_neg hb, hlk]
        have hold : lookupD st.fm (toIntKey e.2) = [] := by
          have h0 : (lookupD st.fm (toIntKey e.2)).length = 0 := by
            simp only [List.length_append, List.length_singleton] at hb
            omega
          exact List.length_eq_zero.mp h0
        constructor
        · intro hmem
          have hl := (h k').mp hmem
          rw [← hk, hold] at hl
          simp at hl
        · intro hlen
          rw [hold] at hlen
          simp at hlen
    · have hlk : lookupD (updateMap st.fm (toIntKey e.2)
          (lookupD st.fm (toIntKey e.2) ++ [e.1])) k'
          = lookupD st.fm k' := lookupD_updateMap_ne _ _ _ _ hk
      by_cases hb : (lookupD st.fm (toIntKey e.2) ++ [e.1]).length > 1
      · rw [if_pos hb, hlk]
        rw [mem_insertKey]
        constructor
        · rintro (rfl | hmem)
          · exact absurd rfl hk
          · exact (h k').mp hmem
        · intro hlen
          exact Or.inr ((h k').mpr hlen)
      · rw [if_neg hb, hlk]
        exact h k'

/-- Keys only ever enter `matching_keys` during the build; none are
removed. -/
lemma foldl_buildStep_mkeys_mono :
    ∀ (files : List (Path × Nat)) (st : BuildState) (k : Int),
      k ∈ st.mkeys → k ∈ (files.foldl buildStep st).mkeys := by
  intro files
  induction files with
  | nil => intro st k h; exact h
  | cons e es ih =>
    intro st k h
    refine ih (buildStep st e) k ?_
    simp only [buildStep]
    by_cases hb : (lookupD st.fm (toIntKey e.2) ++ [e.1]).length > 1
    · rw [if_pos hb]
      exact mem_insertKey.mpr (Or.inr h)
    · rw [if_neg hb]
      exact h

/-- `matching_keys` stays strictly sorted through the build. -/
lemma foldl_buildStep_mkeys_sorted :
    ∀ (files : List (Path × Nat)) (st : BuildState),
      st.mkeys.Pairwise (· < ·) → ((files.foldl buildStep st).mkeys).Pairwise (· < ·) := by
  intro files
  induction files with
  | nil => intro st h; exact h
  | cons e es ih =>
    intro st h
    refine ih (buildStep st e) ?_
    simp only [buildStep]
    by_cases hb : (lookupD st.fm (toIntKey e.2) ++ [e.1]).length > 1
    · rw [if_pos hb]
      exact insertKey_pairwise h
    · rw [if_neg hb]
      exact h

/-- The buckets of the built map are duplicate-free whenever the walked
paths are distinct. -/
lemma buildFileMap_bucket_nodup (files : List (Path × Nat))
    (hnd : (files.map Prod.fst).Nodup) (k : Int) :
    (lookupD (buildFileMap files).fm k).Nodup := by
  rw [buildFileMap_bucket]
  exact (List.Sublist.map Prod.fst (List.filter_sublist files)).nodup hnd

/-- Buckets of distinct keys are disjoint whenever the walked paths are
distinct. -/
lemma buildFileMap_bucket_disjoint (files : List (Path × Nat))
    (hnd : (files.map Prod.fst).Nodup) (k1 k2 : Int) (hk : k1 ≠ k2) :
    ∀ y, y ∈ lookupD (buildFileMap files).fm k1 →
      y ∉ lookupD (buildFileMap files).fm k2 := by
  intro y h1 h2
  rw [buildFileMap_bucket] at h1 h2
  obtain ⟨e1, he1, rfl⟩ := List.mem_map.mp h1
  obtain ⟨e2, he2, heq⟩ := List.mem_map.mp h2
  obtain ⟨he1f, he1k⟩ := List.mem_filter.mp he1
  obtain ⟨he2f, he2k⟩ := List.mem_filter.mp he2
  have he : e2 = e1 := List.inj_on_of_nodup_map hnd he2f he1f heq
  apply hk
  rw [← beq_iff_eq.mp he1k, ← beq_iff_eq.mp he2k, he]

/-- `matching_keys` of a completed build is strictly sorted. -/
lemma buildFileMap_mkeys_sorted (files : List (Path × Nat)) :
    ((buildFileMap files).mkeys).Pairwise (· < ·) :=
  foldl_buildStep_mkeys_sorted files { fm := [], mkeys := [] } List.Pairwise.nil

/-- Dividing each summand by a constant divides the sum. -/
lemma list_sum_map_div {α : Type} (l : List α) (f : α → ℚ) (c : ℚ) :
    (l.map (fun x => f x / c)).sum = (l.map f).sum / c := by
  induction l with
  | nil => simp
  | cons a l ih =>
    simp only [List.map_cons, List.sum_cons, ih]
    rw [add_div]

/-- Appending one path to the bucket of `k` adds `k` to the
key-times-count sum. -/
lemma sum_keyLen_updateMap :
    ∀ (fm : List (Int × List Path)) (k : Int) (p : Path),
      ((updateMap fm k (lookupD fm k ++ [p])).map
        (fun e => (e.1 : ℚ) * (e.2.length : ℚ))).sum
        = (fm.map (fun e => (e.1 : ℚ) * (e.2.length : ℚ))).sum + (k : ℚ) := by
  intro fm
  induction fm with
  | nil => intro k p; simp [updateMap, lookupD]
  | cons e rest ih =>
    intro k p
    obtain ⟨k0, b⟩ := e
    simp only [updateMap, lookupD]
    by_cases h : k0 = k
    · rw [if_pos h, if_pos h]
      subst h
      simp only [List.map_cons, List.sum_cons, List.length_append, List.length_singleton]
      push_cast
      ring
    · rw [if_neg h, if_neg h]
      simp only [List.map_cons, List.sum_cons]
      rw [ih k p]
      ring

/-- The key-times-count sum over the built map equals the sum of the
truncated keys of all walked files. -/
lemma foldl_buildStep_sum :
    ∀ (files : List (Path × Nat)) (st : BuildState),
      (((files.foldl buildStep st).fm).map (fun e => (e.1 : ℚ) * (e.2.length : ℚ))).sum
        = ((st.fm).map (fun e => (e.1 : ℚ) * (e.2.length : ℚ))).sum
          + (files.map (fun e => (toIntKey e.2 : ℚ))).sum := by
  intro files
  induction files with
  | nil => intro st; simp
  | cons e es ih =>
    intro st
    simp only [List.foldl_cons, List.map_cons, List.sum_cons]
    rw [ih (buildStep st e)]
    simp only [buildStep]
    rw [sum_keyLen_updateMap]
    ring

/-- C9: for all file paths A and B, `CompareFiles(A, B)` and
`CompareFiles(B, A)` return the same boolean result, over every
filesystem: both open-failure exits yield false regardless of order, and
each comparison round treats the two files symmetrically. -/
theorem claim_C9_compareFiles_symm (fs : Path → Option (List Nat)) (a b : Path) :
    compareFiles fs a b = compareFiles fs b a := by
  unfold compareFiles compareFilesRun
  cases ha : fs a <;> cases hb : fs b <;> simp only []
  case some.some c1 c2 =>
    have h1 : (cmpLoopF (c1.length + 1) c1 c2 0).1 = (cmpLoopF (c2.length + 1) c1 c2 0).1 := by
      rw [cmpLoopF_congr (c1.length + 1) (c2.length + 1) c1 c2 0
        (Or.inl (by omega)) (Or.inr (by omega))]
    rw [h1, cmpLoopF_result_comm]

/-- C1 is violated by the code: `CompareFiles` can return true for two
files of different on-disk sizes.  With A empty and B holding three zero
bytes, the first round zero-pads both buffers to 64 identical zero
bytes, `memcmp` matches, both `feof` flags are set, and the loop returns
true. -/
theorem claim_C1_unequal_sizes_compare_equal :
    ∃ fs : Path → Option (List Nat), ∃ cA cB : List Nat,
      fs "a" = some cA ∧ fs "b" = some cB ∧ cA.length ≠ cB.length ∧
      compareFiles fs "a" "b" = true := by
  refine ⟨fun s => if s = "a" then some [] else if s = "b" then some [0, 0, 0] else none,
    [], [0, 0, 0], rfl, rfl, by decide, by decide⟩

/-- C4 is violated by the code: when one file opens and the other does
not, `CompareFiles` returns without closing the opened handle.  First
conjunct: file2 fails after file1 opened, file1's handle leaks.  Second
conjunct: file1 fails while file2 opened, file2's handle leaks.  Third
conjunct: the mismatch exit does close both handles. -/
theorem claim_C4_handle_leak :
    (compareFilesRun (fun s => if s = "a" then some [1] else none) "a" "b").leaked = ["a"]
    ∧ (compareFilesRun (fun s => if s = "a" then some [1] else none) "b" "a").leaked = ["a"]
    ∧ (compareFilesRun
        (fun s => if s = "a" then some [1] else if s = "b" then some [2] else none)
        "a" "b").leaked = [] := by
  refine ⟨by decide, by decide, by decide⟩

/-- C5 is violated by the code: `main` constructs
`std::string root(argv[1])` before checking `argc`, so running the
program with no argument dereferences the NULL `argv[1]` (undefined
behaviour) instead of printing usage and exiting with code 1.  With one
extra argument (argc == 3) the check does fire: usage goes to standard
error, exit code 1, and no scan runs. -/
theorem claim_C5_argv_read_before_check :
    mainRun ["file_utils"] = Except.error ()
    ∧ mainRun ["file_utils", "root", "extra"]
        = Except.ok (1, ["Usage: file_utils <root_directory>"], false) := by
  exact ⟨rfl, rfl⟩

/-- C6 as stated is false on the code: the open-failure report goes to
standard output (std::cout, fileUtils.cpp lines 75 and 80), not to
standard error.  Here "b" cannot be opened, the comparison does return
false, but the stderr log is empty and the report appears on stdout. -/
theorem claim_C6_counterexample :
    (compareFilesRun (fun s => if s = "a" then some [1] else none) "a" "b").stderrLog = []
    ∧ (compareFilesRun (fun s => if s = "a" then some [1] else none) "a" "b").result = false
    ∧ (compareFilesRun (fun s => if s = "a" then some [1] else none) "a" "b").stdoutLog
        = ["Could not open: b"] := by
  refine ⟨by decide, by decide, by decide⟩

/-- C6 amended: when either file cannot be opened, `CompareFiles`
reports the failure on standard output (not standard error), returns
false (the model is a total function, so no exception escapes), and the
scan can continue with later comparisons. -/
theorem claim_C6_amended_open_failure (fs : Path → Option (List Nat)) (f1 f2 : Path)
    (h : fs f1 = none ∨ fs f2 = none) :
    compareFiles fs f1 f2 = false
    ∧ (compareFilesRun fs f1 f2).stderrLog = []
    ∧ (compareFilesRun fs f1 f2).stdoutLog ≠ [] := by
  unfold compareFiles compareFilesRun
  rcases h with h | h
  · simp [h]
  · cases h1 : fs f1
    · simp [h, h1]
    · simp [h, h1]

theorem claim_C6_amended_witness :
    compareFiles (fun _ => none) "a" "b" = false
    ∧ (compareFilesRun (fun _ => none) "a" "b").stderrLog = []
    ∧ (compareFilesRun (fun _ => none) "a" "b").stdoutLog ≠ [] :=
  claim_C6_amended_open_failure (fun _ => none) "a" "b" (Or.inl rfl)

/-- C7 as stated is false on the code: for two zero-length files the
result is true, but the do-while body runs once before the `feof` checks,
issuing one `fread` call of 64 bytes on each file (each returning zero
bytes), so a read is performed before the files are declared equal. -/
theorem claim_C7_counterexample :
    (compareFilesRun (fun s => if s = "a" then some [] else if s = "b" then some [] else none)
      "a" "b").result = true
    ∧ (compareFilesRun (fun s => if s = "a" then some [] else if s = "b" then some [] else none)
        "a" "b").rounds ≠ [] := by
  refine ⟨by decide, by decide⟩

/-- C7 amended: two zero-length files compare equal after exactly one
round, in which one 64-byte `fread` is issued on each file and both
return zero bytes. -/
theorem claim_C7_amended_zero_length (fs : Path → Option (List Nat)) (f1 f2 : Path)
    (h1 : fs f1 = some []) (h2 : fs f2 = some []) :
    compareFiles fs f1 f2 = true
    ∧ (compareFilesRun fs f1 f2).rounds = [(64, 0, 0)] := by
  unfold compareFiles compareFilesRun
  simp only [h1, h2]
  exact ⟨by decide, by decide⟩

theorem claim_C7_amended_witness :
    compareFiles (fun _ => some []) "a" "b" = true
    ∧ (compareFilesRun (fun _ => some []) "a" "b").rounds = [(64, 0, 0)] :=
  claim_C7_amended_zero_length (fun _ => some []) "a" "b" rfl rfl

/-- C2: within a single run over any input tree with distinct paths,
every file path appears in at most one emitted cluster — the flattened
cluster output has no duplicate — provided the comparator is symmetric
and transitive, which holds for true byte-identity as the claim states.
The matched set alone does not give this (the source never tests `j`
against it); transitivity is what keeps a matched path out of later
clusters. -/
theorem claim_C2_no_double_report (root : Entry) (cmp : Path → Path → Bool)
    (hnd : ((collectFiles root).map Prod.fst).Nodup)
    (hsym : ∀ a b, cmp a b = cmp b a)
    (htrans : ∀ a b c, cmp a b = true → cmp b c = true → cmp a c = true) :
    ((compareMatchingKeys cmp (buildFileMap (collectFiles root))).1).flatten.Nodup := by
  have hpw : ((buildFileMap (collectFiles root)).mkeys).Pairwise
      (fun k1 k2 => ∀ y, y ∈ lookupD (buildFileMap (collectFiles root)).fm k1 →
        y ∉ lookupD (buildFileMap (collectFiles root)).fm k2) := by
    have hne : ((buildFileMap (collectFiles root)).mkeys).Pairwise (· ≠ ·) :=
      (buildFileMap_mkeys_sorted _).imp (fun h => ne_of_lt h)
    exact hne.imp (fun hab => buildFileMap_bucket_disjoint _ hnd _ _ hab)
  have h := cmkGo_flatten_nodup cmp (buildFileMap (collectFiles root)).fm hsym htrans
    (buildFileMap (collectFiles root)).mkeys []
    (fun k _ => buildFileMap_bucket_nodup (collectFiles root) hnd k)
    hpw
    (fun k _ y hy => absurd hy (List.not_mem_nil y))
  exact h.1

theorem claim_C2_witness :
    ((compareMatchingKeys (fun _ _ => true)
      (buildFileMap (collectFiles (Entry.dir (EntryList.cons (Entry.file "a" 5)
        (EntryList.cons (Entry.file "b" 5)
          (EntryList.cons (Entry.file "c" 5) EntryList.nil))))))).1).flatten.Nodup :=
  claim_C2_no_double_report
    (Entry.dir (EntryList.cons (Entry.file "a" 5)
      (EntryList.cons (Entry.file "b" 5) (EntryList.cons (Entry.file "c" 5) EntryList.nil))))
    (fun _ _ => true) (by decide) (fun _ _ => rfl) (fun _ _ _ _ _ => rfl)

/-- C3 is violated by the code: the inner loop tests
`existing_matches.find(*i)` — the representative — instead of `*j`, so a
path already consumed as a match of an earlier representative is
compared again.  Bucket in walk order: [a, x, b] with a and b
byte-identical and x different.  After the first cluster [a, b] is
emitted (so b is in the matched set), representative x is still compared
against b: the comparator trace contains ("x", "b") as its third entry,
which the claim forbids. -/
theorem claim_C3_matched_j_compared_again :
    (compareMatchingKeys
        (compareFiles (fun s => if s = "a" then some [1] else if s = "x" then some [2]
          else if s = "b" then some [1] else none))
        (buildFileMap [("a", 1), ("x", 1), ("b", 1)])).2
      = [("a", "x"), ("a", "b"), ("x", "b")]
    ∧ (compareMatchingKeys
        (compareFiles (fun s => if s = "a" then some [1] else if s = "x" then some [2]
          else if s = "b" then some [1] else none))
        (buildFileMap [("a", 1), ("x", 1), ("b", 1)])).1 = [["a", "b"]] := by
  exact ⟨by decide, by decide⟩

/-- C8 as stated is false on the code in its final consequence: because
bucket keys are truncated to a signed 32-bit int, a file whose on-disk
size is unique in the tree can still be compared.  Tree: a of size 0 and
b of size 2^32 — two distinct sizes, each unique — share bucket key 0,
and the pair (a, b) is passed to the comparator. -/
theorem claim_C8_counterexample :
    (0 : Nat) ≠ 2 ^ 32
    ∧ ("a", "b") ∈ (compareMatchingKeys (fun _ _ => true)
        (buildFileMap [("a", 0), ("b", 2 ^ 32)])).2 := by
  exact ⟨by decide, by decide⟩

/-- C8 amended: after the build, `matching_keys` holds exactly the keys
whose bucket has more than one path (first conjunct, which holds after
every prefix of the walk, so a key enters the instant its bucket's
second member is added); keys are never removed as the walk extends
(second conjunct); and every pair passed to the comparator comes from
one collision bucket, whose length exceeds one (third conjunct) — so a
file whose TRUNCATED SIZE KEY is unique in the tree is never compared.
Uniqueness of the true on-disk size is not sufficient (see the
counterexample). -/
theorem claim_C8_amended_collision_keys :
    (∀ (files : List (Path × Nat)) (k : Int),
        k ∈ (buildFileMap files).mkeys
          ↔ 1 < (lookupD (buildFileMap files).fm k).length)
    ∧ (∀ (files more : List (Path × Nat)) (k : Int),
        k ∈ (buildFileMap files).mkeys → k ∈ (buildFileMap (files ++ more)).mkeys)
    ∧ (∀ (files : List (Path × Nat)) (cmp : Path → Path → Bool) (p q : Path),
        (p, q) ∈ (compareMatchingKeys cmp (buildFileMap files)).2 →
          ∃ k, k ∈ (buildFileMap files).mkeys
            ∧ p ∈ lookupD (buildFileMap files).fm k
            ∧ q ∈ lookupD (buildFileMap files).fm k
            ∧ 1 < (lookupD (buildFileMap files).fm k).length) := by
  refine ⟨?_, ?_, ?_⟩
  · intro files k
    exact foldl_buildStep_mkeys files { fm := [], mkeys := [] } (by simp [lookupD]) k
  · intro files more k h
    rw [buildFileMap, List.foldl_append]
    exact foldl_buildStep_mkeys_mono more _ k h
  · intro files cmp p q h
    obtain ⟨k, hk, hpq⟩ := cmkGo_trace_sub cmp (buildFileMap files).fm
      (buildFileMap files).mkeys [] p q h
    refine ⟨k, hk, hpq.1, hpq.2, ?_⟩
    exact (foldl_buildStep_mkeys files { fm := [], mkeys := [] } (by simp [lookupD]) k).mp hk

theorem claim_C8_witness :
    ∃ k, k ∈ (buildFileMap [("a", 1), ("b", 1)]).mkeys
      ∧ "a" ∈ lookupD (buildFileMap [("a", 1), ("b", 1)]).fm k
      ∧ "b" ∈ lookupD (buildFileMap [("a", 1), ("b", 1)]).fm k
      ∧ 1 < (lookupD (buildFileMap [("a", 1), ("b", 1)]).fm k).length :=
  claim_C8_amended_collision_keys.2.2 [("a", 1), ("b", 1)] (fun _ _ => true) "a" "b"
    (by decide)

/-- C10: the bucket key is the on-disk size reduced modulo 2^32 into
signed-int range: (i) key and true size are congruent modulo 2^32;
(ii) a size whose residue is at least 2^31 gets a negative key;
(iii) sizes congruent modulo 2^32 get the same key (and so share a
bucket); (iv) each walked file lands in the bucket of its truncated
key; (v) the `Total data compared` stat sums the truncated keys, not
the true sizes. -/
theorem claim_C10_truncated_size_keys :
    (∀ s : Nat, toIntKey s % 2 ^ 32 = (s : Int) % 2 ^ 32)
    ∧ (∀ s : Nat, 2 ^ 31 ≤ s % 2 ^ 32 → toIntKey s < 0)
    ∧ (∀ s1 s2 : Nat, s1 % 2 ^ 32 = s2 % 2 ^ 32 → toIntKey s1 = toIntKey s2)
    ∧ (∀ (files : List (Path × Nat)) (p : Path) (s : Nat), (p, s) ∈ files →
        p ∈ lookupD (buildFileMap files).fm (toIntKey s))
    ∧ (∀ files : List (Path × Nat),
        totalMB (buildFileMap files)
          = (files.map (fun e => (toIntKey e.2 : ℚ))).sum / 2 ^ 20) := by
  refine ⟨?_, ?_, ?_, ?_, ?_⟩
  · intro s
    simp only [toIntKey]
    by_cases h : s % 2 ^ 32 < 2 ^ 31
    · rw [if_pos h]
      push_cast
      omega
    · rw [if_neg h]
      push_cast
      omega
  · intro s h
    simp only [toIntKey]
    rw [if_neg (by omega)]
    have h32 : s % 2 ^ 32 < 2 ^ 32 := Nat.mod_lt _ (by norm_num)
    push_cast
    omega
  · intro s1 s2 h
    simp only [toIntKey]
    rw [h]
  · intro files p s h
    rw [buildFileMap_bucket]
    refine List.mem_map.mpr ⟨(p, s), List.mem_filter.mpr ⟨h, ?_⟩, rfl⟩
    exact beq_iff_eq.mpr rfl
  · intro files
    unfold totalMB
    rw [list_sum_map_div ((buildFileMap files).fm)
      (fun e => (e.1 : ℚ) * (e.2.length : ℚ)) ((2 : ℚ) ^ 20)]
    simp only [buildFileMap]
    rw [foldl_buildStep_sum files { fm := [], mkeys := [] }]
    simp

theorem claim_C10_witness :
    toIntKey (2 ^ 31) < 0
    ∧ toIntKey 5 = toIntKey (5 + 2 ^ 32)
    ∧ "a" ∈ lookupD (buildFileMap [("a", 5)]).fm (toIntKey 5) :=
  ⟨claim_C10_truncated_size_keys.2.1 (2 ^ 31) (by decide),
   claim_C10_truncated_size_keys.2.2.1 5 (5 + 2 ^ 32) (by decide),
   claim_C10_truncated_size_keys.2.2.2.1 [("a", 5)] "a" 5 (by decide)⟩

end FileUtils
